import Mathlib

/-!
Verification of the chunking and sampling engine of the document-ingestion
pipeline (`app/utils.py`).  Python strings are modelled as `List Char` so that
all text operations (`strip`, `split`, slicing) are structurally recursive and
evaluate inside the kernel.  Python `float` scores are modelled as `ℚ`; the
external embedding provider (an HTTP call) and the third-party
`RecursiveCharacterTextSplitter` are modelled as function parameters, since
their code is not part of this repository.  Python's `list.sort(key=…,
reverse=True)` is a stable descending sort; it is modelled by insertion sort
with the reflexive descending relation, which is extensionally the same
function on every input.
-/

namespace Verdicto

/-- Python strings, modelled as character lists. -/
abbrev Str := List Char

/-- Coerce a Lean string literal to the model type. -/
def lit (s : String) : Str := s.data

/-- Whitespace test used by Python `str.strip` / `str.split`. -/
def isWS (c : Char) : Bool := c.isWhitespace

/-- Python `str.strip()`: drop whitespace from both ends. -/
def strip (s : Str) : Str := ((s.dropWhile isWS).reverse.dropWhile isWS).reverse

/-- Helper for `splitNl`: accumulates the current field (reversed). -/
def splitNlGo : Str → Str → List Str
  | [], cur => [cur.reverse]
  | c :: rest, cur =>
    if c = '\n' then cur.reverse :: splitNlGo rest []
    else splitNlGo rest (c :: cur)

/-- Python `text.split('\n')`. -/
def splitNl (s : Str) : List Str := splitNlGo s []

/-- Python `'\n'.join(lines)`. -/
def joinNl : List Str → Str
  | [] => []
  | [s] => s
  | s :: rest => s ++ '\n' :: joinNl rest

/-- Helper for `pySplitWs`: accumulates the current token (reversed). -/
def pySplitGo : Str → Str → List Str
  | [], cur => if cur = [] then [] else [cur.reverse]
  | c :: rest, cur =>
    if isWS c then
      if cur = [] then pySplitGo rest [] else cur.reverse :: pySplitGo rest []
    else pySplitGo rest (c :: cur)

/-- Python `str.split()` with no argument: split on whitespace runs,
no empty tokens. -/
def pySplitWs (s : Str) : List Str := pySplitGo s []

/-- Python `line.split(':', 1)`: `none` when the line has no colon, otherwise
the parts before and after the first colon. -/
def splitFirstColon : Str → Option (Str × Str)
  | [] => none
  | c :: rest =>
    if c = ':' then some ([], rest)
    else (splitFirstColon rest).map (fun p => (c :: p.1, p.2))

/-- Python `str.lower()` (ASCII use only in this code base). -/
def pyLower (s : Str) : Str := s.map Char.toLower

/-- Python `str.title()` applied to the single-word lower-case header keys. -/
def capFirst : Str → Str
  | [] => []
  | c :: rest => c.toUpper :: rest

/-- A metadata value: the pipeline stores strings and integers. -/
inductive MVal where
  | vs (v : Str)
  | vn (v : Nat)
  deriving DecidableEq, Repr

/-- Python `dict` used for document metadata, as an association list. -/
abbrev Metadata := List (Str × MVal)

/-- Python `dict` update of one key: replace in place or append. -/
def metaSet : Metadata → Str → MVal → Metadata
  | [], k, v => [(k, v)]
  | (k', v') :: rest, k, v =>
    if k' = k then (k, v) :: rest else (k', v') :: metaSet rest k v

/-- Python `dict.get(k)` returning `None` when absent. -/
def metaGet? : Metadata → Str → Option MVal
  | [], _ => none
  | (k', v') :: rest, k => if k' = k then some v' else metaGet? rest k

/-- Python `dict.get(k, default)` for the string-valued keys the pipeline
reads back (`section_title`, `doc_type`); those keys are only ever written
with string values. -/
def metaGetStr (m : Metadata) (k : Str) (d : Str) : Str :=
  match metaGet? m k with
  | some (.vs s) => s
  | _ => d

/-- Apply a sequence of `dict` updates (Python `metadata.update({...})`
 / `**headers` splat). -/
def metaSetAll (m : Metadata) (kvs : Metadata) : Metadata :=
  kvs.foldl (fun acc kv => metaSet acc kv.1 kv.2) m

/-- A langchain `Document`: page content plus metadata.  Equality is pydantic
field equality. -/
structure Doc where
  pageContent : Str
  metadata : Metadata
  deriving DecidableEq, Repr

/-- `UniversalDocumentSplitter._has_sufficient_context`:
`len(text.strip()) > 10 and len(text.split()) > 2`. -/
def hasSufficientContext (text : Str) : Bool :=
  decide (10 < (strip text).length) && decide (2 < (pySplitWs text).length)

/-- The size-tier table inside `get_smart_splitter`: total content length to
`(chunk_size, chunk_overlap)`. -/
def selectParameters (contentLength : Nat) : Nat × Nat :=
  if 100000 < contentLength then (3500, 500)
  else if 50000 < contentLength then (3000, 400)
  else if 25000 < contentLength then (2500, 350)
  else if 10000 < contentLength then (2000, 300)
  else if 5000 < contentLength then (1800, 250)
  else (1500, 200)

/-- Constructor parameters of `UniversalDocumentSplitter`. -/
structure SplitterCfg where
  chunkSize : Nat
  chunkOverlap : Nat
  docType : Str
  deriving DecidableEq, Repr

/-- `get_smart_splitter(content_length, doc_type)`. -/
def getSmartSplitter (contentLength : Nat) (docType : Str) : SplitterCfg :=
  ⟨(selectParameters contentLength).1, (selectParameters contentLength).2, docType⟩

/-- The line loop of `UniversalDocumentSplitter._identify_sections`.
`hdr` is the compiled boundary-pattern table for the active document type
(`any(re.match(p, line.strip()) for p in patterns)`), taken as a parameter
because the regex engine is external.  State: remaining lines, current line
index `i`, accumulated `current_section` lines, `current_title`,
`section_start`, and the emitted sections. -/
def identifySectionsGo (hdr : Str → Bool) :
    List Str → Nat → List Str → Str → Nat → List (Str × Str × Nat) →
    List (Str × Str × Nat)
  | [], _, curSec, curTitle, secStart, secs =>
    -- `if current_section:` final-section handling
    if curSec = [] then secs
    else
      let txt := joinNl curSec
      if 50 < (strip txt).length then secs ++ [(curTitle, txt, secStart)] else secs
  | line :: rest, i, curSec, curTitle, secStart, secs =>
    if hdr (strip line) ∧ curSec ≠ [] then
      let txt := joinNl curSec
      let secs' :=
        if 50 < (strip txt).length then secs ++ [(curTitle, txt, secStart)] else secs
      identifySectionsGo hdr rest (i + 1) [line] (strip line) i secs'
    else
      identifySectionsGo hdr rest (i + 1) (curSec ++ [line]) curTitle secStart secs

/-- `UniversalDocumentSplitter._identify_sections(text, doc_type)`:
returns the `(title, body, start_line)` triples. -/
def identifySections (hdr : Str → Bool) (text : Str) : List (Str × Str × Nat) :=
  identifySectionsGo hdr (splitNl text) 0 [] [] 0 []

/-- `f"{section_title}\n\n{chunk}" if section_title else chunk`. -/
def enhance (title chunk : Str) : Str :=
  if title = [] then chunk else title ++ '\n' :: '\n' :: chunk

/-- `UniversalDocumentSplitter._split_section`.  `rcts` stands for
`RecursiveCharacterTextSplitter(...).split_text` with the custom separator
list (external library).  The small-section test `len(section_text) <=
self.chunk_size * 1.5` is the integer-exact form `2*len <= 3*chunk_size`. -/
def splitSection (chunkSize : Nat) (rcts : Str → List Str)
    (sectionText sectionTitle : Str) (baseMeta : Metadata) (startPos : Nat) :
    List Doc :=
  if 2 * sectionText.length ≤ 3 * chunkSize then
    [⟨enhance sectionTitle sectionText,
      metaSet (metaSet (metaSet baseMeta
          (lit "section_title") (.vs sectionTitle))
          (lit "section_start") (.vn startPos))
          (lit "chunk_type") (.vs (lit "complete_section"))⟩]
  else
    (rcts sectionText).enum.filterMap fun p =>
      if hasSufficientContext p.2 then
        some ⟨enhance sectionTitle p.2,
          metaSet (metaSet (metaSet (metaSet baseMeta
              (lit "section_title") (.vs sectionTitle))
              (lit "section_start") (.vn startPos))
              (lit "chunk_index") (.vn p.1))
              (lit "chunk_type") (.vs (lit "section_part"))⟩
      else none

/-- `UniversalDocumentSplitter._fallback_split`.  `rcts` stands for
`RecursiveCharacterTextSplitter(chunk_size, chunk_overlap).split_documents`,
which splits the page content and copies the document metadata onto each
piece. -/
def fallbackSplit (rcts : Str → List Str) (doc : Doc) : List Doc :=
  (rcts doc.pageContent).enum.filterMap fun p =>
    if hasSufficientContext p.2 then
      some ⟨p.2,
        metaSet (metaSet doc.metadata
            (lit "chunk_index") (.vn p.1))
            (lit "chunk_type") (.vs (lit "fallback_split"))⟩
    else none

/-- The recognised lower-case email header keys. -/
def emailHeaderKeys : List Str :=
  [lit "from", lit "to", lit "subject", lit "date", lit "cc", lit "bcc"]

/-- One iteration of the header-extraction loop of
`UniversalDocumentSplitter._split_email_document`:
`if ':' in line and i < 20`, colon-split once, and record the header and
`body_start = i + 1` when the lower-cased key is recognised. -/
def extractHeadersStep (acc : Metadata × Nat) (p : Nat × Str) : Metadata × Nat :=
  if p.1 < 20 then
    match splitFirstColon p.2 with
    | some (k, v) =>
      if pyLower (strip k) ∈ emailHeaderKeys then
        (metaSet acc.1 (pyLower (strip k)) (.vs (strip v)), p.1 + 1)
      else acc
    | none => acc
  else acc

/-- The header-extraction loop over all lines (the `i < 20` window check
lives in the step). -/
def extractHeaders (lines : List Str) : Metadata × Nat :=
  lines.enum.foldl extractHeadersStep ([], 0)

/-- The rendered header chunk text `"Email Headers:\n" + "Key: value\n"…`. -/
def emailHeaderText (headers : Metadata) : Str :=
  headers.foldl
    (fun acc kv =>
      acc ++ capFirst kv.1 ++ ':' :: ' ' ::
        (match kv.2 with | .vs v => v | .vn _ => []) ++ ['\n'])
    (lit "Email Headers:" ++ ['\n'])

/-- `UniversalDocumentSplitter._split_email_document`.  `rcts` stands for
`RecursiveCharacterTextSplitter(chunk_size, chunk_overlap).split_text`. -/
def splitEmailDocument (cfg : SplitterCfg) (rcts : Str → List Str) (doc : Doc) :
    List Doc :=
  let lines := splitNl doc.pageContent
  let hb := extractHeaders lines
  let headers := hb.1
  let body := joinNl (lines.drop hb.2)
  let headerChunks : List Doc :=
    if headers = [] then []
    else
      [⟨emailHeaderText headers,
        metaSetAll (metaSet (metaSet doc.metadata
            (lit "section_title") (.vs (lit "Email Headers")))
            (lit "chunk_type") (.vs (lit "email_headers"))) headers⟩]
  let bodyChunks : List Doc :=
    if strip body = [] then []
    else if body.length ≤ cfg.chunkSize then
      [⟨body,
        metaSetAll (metaSet (metaSet doc.metadata
            (lit "section_title") (.vs (lit "Email Body")))
            (lit "chunk_type") (.vs (lit "email_body"))) headers⟩]
    else
      (rcts body).enum.map fun p =>
        ⟨p.2,
          metaSetAll (metaSet (metaSet (metaSet doc.metadata
              (lit "section_title")
                (.vs (lit "Email Body Part " ++ (Nat.toDigits 10 (p.1 + 1)))))
              (lit "chunk_type") (.vs (lit "email_body")))
              (lit "chunk_index") (.vn p.1)) headers⟩
  headerChunks ++ bodyChunks

/-- `UniversalDocumentSplitter._split_single_document`.  `hdrFor` maps a
document type to its boundary predicate (`SECTION_PATTERNS` lookup);
`rctsDefault` and `rctsSection` stand for the two
`RecursiveCharacterTextSplitter` configurations used by the fallback/email
paths and the section path. -/
def splitSingleDocument (cfg : SplitterCfg) (hdrFor : Str → Str → Bool)
    (rctsDefault rctsSection : Str → List Str) (doc : Doc) : List Doc :=
  let docType := metaGetStr doc.metadata (lit "doc_type") cfg.docType
  if docType = lit "email" then splitEmailDocument cfg rctsDefault doc
  else
    let sections := identifySections (hdrFor docType) doc.pageContent
    if sections = [] then fallbackSplit rctsDefault doc
    else
      (sections.map fun s =>
        splitSection cfg.chunkSize rctsSection s.2.1 s.1 doc.metadata s.2.2).flatten

/-- The generic relevance query substituted when no query is provided
(`calculate_semantic_scores`). -/
def genericQuery : Str :=
  lit "important terms conditions coverage benefits requirements procedures definitions"

/-- `if not query: query = …` — `None` and the empty string both trigger the
generic query. -/
def effectiveQuery : Option Str → Str
  | none => genericQuery
  | some q => if q = [] then genericQuery else q

/-- Per-chunk embedding input: `chunk.page_content[:500].strip()`, or the
fully stripped content if that is shorter than 50 characters. -/
def prepChunkText (s : Str) : Str :=
  let t := strip (s.take 500)
  if t.length < 50 then strip s else t

/-- The length-proportional fallback score
`min(len(text.split()) / 100, 1.0)`. -/
def fallbackScore (text : Str) : ℚ :=
  min (((pySplitWs text).length : ℚ) / 100) 1

/-- The full embedding input list `[query] + chunk_texts`. -/
def scoreInputs (chunks : List Doc) (query : Option Str) : List Str :=
  effectiveQuery query :: chunks.map (fun c => prepChunkText c.pageContent)

/-- `calculate_semantic_scores(chunks, query)`.  `embed` is the external
Voyage embedding call (`get_embeddings`), returning `none` when it raises;
`cosSim` is the floating-point `cosine_similarity`, abstracted over `ℚ`
vectors.  Any exception inside the `try` block — including an empty
embedding list, which would make `embeddings[0]` raise — lands in the
`except` branch, which returns the length-proportional fallback scores. -/
def calculateSemanticScores (embed : List Str → Option (List (List ℚ)))
    (cosSim : List ℚ → List ℚ → ℚ) (chunks : List Doc) (query : Option Str) :
    List ℚ :=
  match embed (effectiveQuery query :: chunks.map fun c => prepChunkText c.pageContent) with
  | some (qe :: ces) => ces.map (fun ce => max (cosSim qe ce) 0)
  | _ => (chunks.map fun c => prepChunkText c.pageContent).map fallbackScore

/-- `chunk.metadata.get('section_title', '')`. -/
def sectionTitleOf (d : Doc) : Str := metaGetStr d.metadata (lit "section_title") []

/-- Python's stable `list.sort(key=…, reverse=True)`: stable descending sort
by a rational key.  Insertion sort with the reflexive descending relation is
stable and extensionally equal to it on every input. -/
def sortDescBy (key : α → ℚ) (l : List α) : List α :=
  l.insertionSort (fun a b => key b ≤ key a)

/-- One `defaultdict(list)` append: groups keep first-encounter key order and
each bucket keeps encounter order. -/
def addToGroup : List (Str × List (Doc × ℚ)) → Str → (Doc × ℚ) →
    List (Str × List (Doc × ℚ))
  | [], t, p => [(t, [p])]
  | (t', l) :: rest, t, p =>
    if t' = t then (t', l ++ [p]) :: rest else (t', l) :: addToGroup rest t p

/-- The grouping loop of `semantic_chunk_sampling`: scored chunks with a
non-empty `section_title` go to their section bucket, the rest to
`standalone_chunks`. -/
def partitionScoredGo (acc : List (Str × List (Doc × ℚ)) × List (Doc × ℚ)) :
    List (Doc × ℚ) → List (Str × List (Doc × ℚ)) × List (Doc × ℚ)
  | [] => acc
  | p :: rest =>
    let t := sectionTitleOf p.1
    if t = [] then partitionScoredGo (acc.1, acc.2 ++ [p]) rest
    else partitionScoredGo (addToGroup acc.1 t p, acc.2) rest

/-- `section_groups` / `standalone_chunks` from the scored chunk list. -/
def partitionScored (scored : List (Doc × ℚ)) :
    List (Str × List (Doc × ℚ)) × List (Doc × ℚ) :=
  partitionScoredGo ([], []) scored

/-- A section's mean score (`avg_score`). -/
def sectionAvg (l : List (Doc × ℚ)) : ℚ := (l.map (·.2)).sum / l.length

/-- `chunks_per_section = max(2, max_chunks // max(len(section_groups), 1))`. -/
def quotaOf (maxChunks nSections : Nat) : Nat :=
  max 2 (maxChunks / max nSections 1)

/-- The section walk: from each section (already sorted by mean score),
take its locally top-scoring chunks up to the quota, and stop the whole walk
once the selection reaches `max_chunks`. -/
def walkSections (maxChunks quota : Nat) :
    List (Str × ℚ × List (Doc × ℚ)) → List Doc → List Doc
  | [], acc => acc
  | (_, _, l) :: rest, acc =>
    let sorted := sortDescBy (·.2) l
    let acc' := acc ++ (sorted.take (min l.length quota)).map (·.1)
    if maxChunks ≤ acc'.length then acc'
    else walkSections maxChunks quota rest acc'

/-- The section phase of `semantic_chunk_sampling`: build
`section_avg_scores`, sort by mean score descending, and walk. -/
def sampleGroupsPhase (maxChunks : Nat)
    (groups : List (Str × List (Doc × ℚ))) : List Doc :=
  if groups = [] then []
  else
    walkSections maxChunks (quotaOf maxChunks groups.length)
      (sortDescBy (·.2.1) (groups.map fun g => (g.1, sectionAvg g.2, g.2))) []

/-- The standalone phase: when slots remain
(`remaining_slots = max_chunks - len(selected) > 0`), append the top-scoring
standalone chunks up to the remaining quota. -/
def sampleFillPhase (maxChunks : Nat) (standalone : List (Doc × ℚ))
    (selected : List Doc) : List Doc :=
  if 0 < maxChunks - selected.length ∧ standalone ≠ [] then
    selected ++
      ((sortDescBy (·.2) standalone).take (maxChunks - selected.length)).map (·.1)
  else selected

/-- The re-scoring loop of the final truncation: pair each selected chunk
with the score of the first equal chunk in the original scored list. -/
def reScore (scored : List (Doc × ℚ)) (selected : List Doc) :
    List (Doc × ℚ) :=
  selected.filterMap fun c =>
    (scored.find? fun p => p.1 = c).map fun p => (c, p.2)

/-- The final truncation: when still over the limit, re-sort the selection by
score descending and keep the top `max_chunks`. -/
def sampleTruncPhase (maxChunks : Nat) (scored : List (Doc × ℚ))
    (selected : List Doc) : List Doc :=
  if maxChunks < selected.length then
    (((sortDescBy (·.2) (reScore scored selected))).take maxChunks).map (·.1)
  else selected

/-- The body of `semantic_chunk_sampling` after the identity early return,
given the computed semantic scores. -/
def sampleCore (chunks : List Doc) (maxChunks : Nat) (scores : List ℚ) :
    List Doc :=
  let scored := chunks.zip scores
  let pr := partitionScored scored
  sampleTruncPhase maxChunks scored
    (sampleFillPhase maxChunks pr.2 (sampleGroupsPhase maxChunks pr.1))

/-- `semantic_chunk_sampling(chunks, max_chunks, query)`.  `embed` and
`cosSim` are the external embedding provider and float cosine similarity,
threaded to `calculate_semantic_scores`. -/
def semanticChunkSampling (embed : List Str → Option (List (List ℚ)))
    (cosSim : List ℚ → List ℚ → ℚ) (chunks : List Doc) (maxChunks : Nat)
    (query : Option Str) : List Doc :=
  if chunks.length ≤ maxChunks then chunks
  else sampleCore chunks maxChunks (calculateSemanticScores embed cosSim chunks query)

/-! ## Helper lemmas -/

/-- All scored pairs stored across the section buckets, in bucket order. -/
def groupsFlat (gs : List (Str × List (Doc × ℚ))) : List (Doc × ℚ) :=
  (gs.map (·.2)).flatten

theorem countP_groupsFlat_addToGroup (q : Doc × ℚ → Bool)
    (gs : List (Str × List (Doc × ℚ))) (t : Str) (p : Doc × ℚ) :
    (groupsFlat (addToGroup gs t p)).countP q
      = (groupsFlat gs).countP q + if q p then 1 else 0 := by
  induction gs with
  | nil =>
    by_cases hq : q p <;> simp [addToGroup, groupsFlat, List.countP_cons, hq]
  | cons g rest ih =>
    obtain ⟨t', l⟩ := g
    by_cases h : t' = t
    · by_cases hq : q p <;>
        simp [addToGroup, h, groupsFlat, List.countP_append, List.countP_cons, hq] <;>
        omega
    · simp only [addToGroup, h, if_false, groupsFlat, List.map_cons, List.flatten_cons,
        List.countP_append] at ih ⊢
      omega

theorem countP_partitionScoredGo (q : Doc × ℚ → Bool)
    (ps : List (Doc × ℚ)) :
    ∀ acc : List (Str × List (Doc × ℚ)) × List (Doc × ℚ),
    (groupsFlat (partitionScoredGo acc ps).1).countP q
        + (partitionScoredGo acc ps).2.countP q
      = (groupsFlat acc.1).countP q + acc.2.countP q + ps.countP q := by
  induction ps with
  | nil => intro acc; simp [partitionScoredGo]
  | cons p rest ih =>
    intro acc
    by_cases h : sectionTitleOf p.1 = []
    · have := ih (acc.1, acc.2 ++ [p])
      simp only [partitionScoredGo, h, if_true] at *
      rw [this]
      by_cases hq : q p <;>
        simp [List.countP_append, List.countP_cons, hq] <;> omega
    · have := ih (addToGroup acc.1 (sectionTitleOf p.1) p, acc.2)
      simp only [partitionScoredGo, h, if_false] at *
      rw [this, countP_groupsFlat_addToGroup]
      by_cases hq : q p <;> simp [List.countP_cons, hq] <;> omega

theorem countP_partitionScored (q : Doc × ℚ → Bool) (scored : List (Doc × ℚ)) :
    (groupsFlat (partitionScored scored).1).countP q
        + (partitionScored scored).2.countP q
      = scored.countP q := by
  have := countP_partitionScoredGo q scored ([], [])
  simpa [partitionScored, groupsFlat] using this

theorem sortDescBy_perm (key : α → ℚ) (l : List α) :
    List.Perm (sortDescBy key l) l :=
  List.perm_insertionSort _ l

/-- The pair lists carried by the section triples, flattened in order. -/
def secsFlat (secs : List (Str × ℚ × List (Doc × ℚ))) : List (Doc × ℚ) :=
  (secs.map (·.2.2)).flatten

theorem countP_take_sort_map_le (qd : Doc → Bool) (l : List (Doc × ℚ)) (n : Nat) :
    (((sortDescBy (·.2) l).take n).map (·.1)).countP qd
      ≤ l.countP (fun p => qd p.1) := by
  rw [List.countP_map]
  have h1 : ((sortDescBy (·.2) l).take n).countP (qd ∘ (·.1))
      ≤ (sortDescBy (·.2) l).countP (qd ∘ (·.1)) :=
    (List.take_sublist n _).countP_le _
  have h2 : (sortDescBy (·.2) l).countP (qd ∘ (·.1)) = l.countP (qd ∘ (·.1)) :=
    (sortDescBy_perm _ l).countP_eq _
  have h3 : l.countP (qd ∘ (·.1)) = l.countP (fun p => qd p.1) := rfl
  omega

theorem countP_walkSections_le (qd : Doc → Bool) (m k : Nat)
    (secs : List (Str × ℚ × List (Doc × ℚ))) :
    ∀ acc : List Doc,
    (walkSections m k secs acc).countP qd
      ≤ acc.countP qd + (secsFlat secs).countP (fun p => qd p.1) := by
  induction secs with
  | nil => intro acc; simp [walkSections, secsFlat]
  | cons s rest ih =>
    intro acc
    obtain ⟨t, a, l⟩ := s
    have hpiece := countP_take_sort_map_le qd l (min l.length k)
    simp only [walkSections]
    split
    · rw [List.countP_append]
      simp only [secsFlat, List.map_cons, List.flatten_cons, List.countP_append]
      omega
    · have h1 := ih (acc ++ ((sortDescBy (·.2) l).take (min l.length k)).map (·.1))
      rw [List.countP_append] at h1
      simp only [secsFlat, List.map_cons, List.flatten_cons, List.countP_append] at h1 ⊢
      omega

theorem countP_sampleGroupsPhase_le (qd : Doc → Bool) (m : Nat)
    (groups : List (Str × List (Doc × ℚ))) :
    (sampleGroupsPhase m groups).countP qd
      ≤ (groupsFlat groups).countP (fun p => qd p.1) := by
  unfold sampleGroupsPhase
  split
  · simp
  · have hwalk := countP_walkSections_le qd m (quotaOf m groups.length)
      (sortDescBy (·.2.1) (groups.map fun g => (g.1, sectionAvg g.2, g.2))) []
    have hperm : List.Perm
        (secsFlat (sortDescBy (·.2.1) (groups.map fun g => (g.1, sectionAvg g.2, g.2))))
        (groupsFlat groups) := by
      have h1 : List.Perm
          ((sortDescBy (·.2.1) (groups.map fun g => (g.1, sectionAvg g.2, g.2))).map (·.2.2))
          ((groups.map fun g => (g.1, sectionAvg g.2, g.2)).map (·.2.2)) :=
        (sortDescBy_perm _ _).map _
      have h2 : ((groups.map fun g => (g.1, sectionAvg g.2, g.2)).map (·.2.2))
          = groups.map (·.2) := by rw [List.map_map]; rfl
      have h3 := h1.flatten
      rw [h2] at h3
      exact h3
    have heq := hperm.countP_eq (fun p => qd p.1)
    simp only [List.countP_nil, Nat.zero_add] at hwalk
    omega

theorem countP_sampleFillPhase_le (qd : Doc → Bool) (m : Nat)
    (standalone : List (Doc × ℚ)) (sel : List Doc) :
    (sampleFillPhase m standalone sel).countP qd
      ≤ sel.countP qd + standalone.countP (fun p => qd p.1) := by
  unfold sampleFillPhase
  split
  · rw [List.countP_append]
    have := countP_take_sort_map_le qd standalone (m - sel.length)
    omega
  · omega

theorem reScore_map_fst_sublist (scored : List (Doc × ℚ)) (sel : List Doc) :
    List.Sublist ((reScore scored sel).map (·.1)) sel := by
  induction sel with
  | nil => simp [reScore]
  | cons c rest ih =>
    simp only [reScore] at ih ⊢
    rw [List.filterMap_cons]
    cases hf : scored.find? (fun p => decide (p.1 = c)) with
    | none => exact ih.trans (List.sublist_cons_self c rest)
    | some p =>
      simp only [Option.map_some', List.map_cons]
      exact ih.cons₂ c

theorem countP_sampleTruncPhase_le (qd : Doc → Bool) (m : Nat)
    (scored : List (Doc × ℚ)) (sel : List Doc) :
    (sampleTruncPhase m scored sel).countP qd ≤ sel.countP qd := by
  unfold sampleTruncPhase
  split
  · calc (((sortDescBy (·.2) (reScore scored sel)).take m).map (·.1)).countP qd
        ≤ (reScore scored sel).countP (fun p => qd p.1) :=
          countP_take_sort_map_le qd (reScore scored sel) m
      _ = ((reScore scored sel).map (·.1)).countP qd := by rw [List.countP_map]; rfl
      _ ≤ sel.countP qd := (reScore_map_fst_sublist scored sel).countP_le _
  · exact Nat.le_refl _

theorem countP_zip_fst_le (qd : Doc → Bool) (chunks : List Doc) :
    ∀ scores : List ℚ,
    (chunks.zip scores).countP (fun p => qd p.1) ≤ chunks.countP qd := by
  induction chunks with
  | nil => intro scores; simp
  | cons c rest ih =>
    intro scores
    cases scores with
    | nil => simp [List.countP_cons]
    | cons s srest =>
      have := ih srest
      by_cases hq : qd c <;> simp [List.countP_cons, hq] <;> omega

theorem countP_sampleCore_le (qd : Doc → Bool) (chunks : List Doc) (m : Nat)
    (scores : List ℚ) :
    (sampleCore chunks m scores).countP qd ≤ chunks.countP qd := by
  unfold sampleCore
  calc (sampleTruncPhase m (chunks.zip scores)
          (sampleFillPhase m (partitionScored (chunks.zip scores)).2
            (sampleGroupsPhase m (partitionScored (chunks.zip scores)).1))).countP qd
      ≤ (sampleFillPhase m (partitionScored (chunks.zip scores)).2
          (sampleGroupsPhase m (partitionScored (chunks.zip scores)).1)).countP qd :=
        countP_sampleTruncPhase_le qd m _ _
    _ ≤ (sampleGroupsPhase m (partitionScored (chunks.zip scores)).1).countP qd
          + (partitionScored (chunks.zip scores)).2.countP (fun p => qd p.1) :=
        countP_sampleFillPhase_le qd m _ _
    _ ≤ (groupsFlat (partitionScored (chunks.zip scores)).1).countP (fun p => qd p.1)
          + (partitionScored (chunks.zip scores)).2.countP (fun p => qd p.1) := by
        have := countP_sampleGroupsPhase_le qd m (partitionScored (chunks.zip scores)).1
        omega
    _ = (chunks.zip scores).countP (fun p => qd p.1) :=
        countP_partitionScored _ (chunks.zip scores)
    _ ≤ chunks.countP qd := countP_zip_fst_le qd chunks scores

theorem mem_chunks_of_mem_sampleCore (chunks : List Doc) (m : Nat)
    (scores : List ℚ) (d : Doc) (hd : d ∈ sampleCore chunks m scores) :
    d ∈ chunks := by
  have h := countP_sampleCore_le (fun x => decide (x = d)) chunks m scores
  have h1 : 0 < (sampleCore chunks m scores).countP (fun x => decide (x = d)) :=
    List.countP_pos.mpr ⟨d, hd, by simp⟩
  have h2 : 0 < chunks.countP (fun x => decide (x = d)) := lt_of_lt_of_le h1 h
  obtain ⟨a, ha, hpa⟩ := List.countP_pos.mp h2
  have : a = d := by simpa using hpa
  exact this ▸ ha

theorem addToGroup_title (gs : List (Str × List (Doc × ℚ))) (t : Str)
    (p0 : Doc × ℚ)
    (hinv : ∀ g ∈ gs, ∀ p ∈ g.2, sectionTitleOf p.1 = g.1)
    (hp0 : sectionTitleOf p0.1 = t) :
    ∀ g ∈ addToGroup gs t p0, ∀ p ∈ g.2, sectionTitleOf p.1 = g.1 := by
  induction gs with
  | nil =>
    intro g hg p hp
    simp only [addToGroup, List.mem_singleton] at hg
    subst hg
    simp only [List.mem_singleton] at hp
    subst hp
    exact hp0
  | cons g0 rest ih =>
    obtain ⟨t', l⟩ := g0
    intro g hg p hp
    by_cases h : t' = t
    · simp only [addToGroup, h, if_true, List.mem_cons] at hg
      rcases hg with hg | hg
      · subst hg
        rcases List.mem_append.mp hp with hpl | hpl
        · exact h ▸ hinv (t', l) (List.mem_cons_self _ _) p hpl
        · simp only [List.mem_singleton] at hpl
          subst hpl
          exact hp0
      · exact hinv g (List.mem_cons_of_mem _ hg) p hp
    · simp only [addToGroup, h, if_false, List.mem_cons] at hg
      rcases hg with hg | hg
      · subst hg
        exact hinv (t', l) (List.mem_cons_self _ _) p hp
      · exact ih (fun g' hg' => hinv g' (List.mem_cons_of_mem _ hg')) g hg p hp

theorem partitionScoredGo_title (ps : List (Doc × ℚ)) :
    ∀ acc : List (Str × List (Doc × ℚ)) × List (Doc × ℚ),
    (∀ g ∈ acc.1, ∀ p ∈ g.2, sectionTitleOf p.1 = g.1) →
    ∀ g ∈ (partitionScoredGo acc ps).1, ∀ p ∈ g.2, sectionTitleOf p.1 = g.1 := by
  induction ps with
  | nil => intro acc hinv; simpa [partitionScoredGo] using hinv
  | cons p rest ih =>
    intro acc hinv
    by_cases h : sectionTitleOf p.1 = []
    · simp only [partitionScoredGo, h, if_true]
      exact ih (acc.1, acc.2 ++ [p]) hinv
    · simp only [partitionScoredGo, h, if_false]
      exact ih (addToGroup acc.1 (sectionTitleOf p.1) p, acc.2)
        (addToGroup_title acc.1 _ p hinv rfl)

theorem partitionScored_title (scored : List (Doc × ℚ)) :
    ∀ g ∈ (partitionScored scored).1, ∀ p ∈ g.2, sectionTitleOf p.1 = g.1 :=
  partitionScoredGo_title scored ([], []) (by simp)

theorem walkSections_append (m k : Nat) (secs : List (Str × ℚ × List (Doc × ℚ))) :
    ∀ acc : List Doc, ∃ t, walkSections m k secs acc = acc ++ t := by
  induction secs with
  | nil => intro acc; exact ⟨[], by simp [walkSections]⟩
  | cons s rest ih =>
    intro acc
    obtain ⟨t, a, l⟩ := s
    simp only [walkSections]
    split
    · exact ⟨_, rfl⟩
    · obtain ⟨t2, ht2⟩ := ih (acc ++ ((sortDescBy (·.2) l).take (min l.length k)).map (·.1))
      exact ⟨((sortDescBy (·.2) l).take (min l.length k)).map (·.1) ++ t2,
        by rw [ht2, List.append_assoc]⟩

theorem walk_piece_length (l : List (Doc × ℚ)) (k : Nat) (hk : k ≤ l.length) :
    (((sortDescBy (·.2) l).take (min l.length k)).map (·.1)).length = k := by
  simp only [List.length_map, List.length_take, (sortDescBy_perm (·.2) l).length_eq]
  omega

theorem walk_piece_countP (l : List (Doc × ℚ)) (k : Nat) (t : Str)
    (hall : ∀ p ∈ l, sectionTitleOf p.1 = t) (hk : k ≤ l.length) :
    (((sortDescBy (·.2) l).take (min l.length k)).map (·.1)).countP
      (fun d => decide (sectionTitleOf d = t)) = k := by
  have h1 : (((sortDescBy (·.2) l).take (min l.length k)).map (·.1)).countP
      (fun d => decide (sectionTitleOf d = t))
      = (((sortDescBy (·.2) l).take (min l.length k)).map (·.1)).length := by
    rw [List.countP_eq_length]
    intro d hd
    obtain ⟨p, hp, rfl⟩ := List.mem_map.mp hd
    have hp' : p ∈ sortDescBy (·.2) l := (List.take_sublist _ _).mem hp
    have hp'' : p ∈ l := (sortDescBy_perm (·.2) l).mem_iff.mp hp'
    simpa using hall p hp''
  rw [h1, walk_piece_length l k hk]

theorem walkSections_length (m k : Nat) (secs : List (Str × ℚ × List (Doc × ℚ)))
    (hk : ∀ s ∈ secs, k ≤ s.2.2.length) :
    ∀ acc : List Doc, acc.length + (secs.length - 1) * k < m →
    (walkSections m k secs acc).length = acc.length + secs.length * k := by
  induction secs with
  | nil => intro acc _; simp [walkSections]
  | cons s rest ih =>
    intro acc hsize
    obtain ⟨t, a, l⟩ := s
    have hkl : k ≤ l.length := hk (t, a, l) (List.mem_cons_self _ _)
    have hpl := walk_piece_length l k hkl
    simp only [walkSections]
    cases hrest : rest with
    | nil =>
      subst hrest
      split
      · rw [List.length_append, hpl]
        simp
      · simp only [walkSections]
        rw [List.length_append, hpl]
        simp
    | cons r rs =>
      subst hrest
      simp only [List.length_cons, Nat.add_sub_cancel] at hsize
      have hmul1 : (rs.length + 1) * k = rs.length * k + k := Nat.succ_mul _ _
      have hnostop : ¬ m ≤ (acc ++ ((sortDescBy (·.2) l).take (min l.length k)).map (·.1)).length := by
        rw [List.length_append, hpl]
        omega
      rw [if_neg hnostop]
      have ih' := ih (fun s hs => hk s (List.mem_cons_of_mem _ hs))
        (acc ++ ((sortDescBy (·.2) l).take (min l.length k)).map (·.1))
        (by
          rw [List.length_append, hpl]
          simp only [List.length_cons, Nat.add_sub_cancel]
          omega)
      rw [ih', List.length_append, hpl]
      simp only [List.length_cons]
      have hmul2 : (rs.length + 1 + 1) * k = (rs.length + 1) * k + k := Nat.succ_mul _ _
      omega

theorem walkSections_coverage (m k : Nat) (secs : List (Str × ℚ × List (Doc × ℚ)))
    (hk : ∀ s ∈ secs, k ≤ s.2.2.length)
    (htitle : ∀ s ∈ secs, ∀ p ∈ s.2.2, sectionTitleOf p.1 = s.1) :
    ∀ acc : List Doc, acc.length + (secs.length - 1) * k < m →
    ∀ s ∈ secs, k ≤ (walkSections m k secs acc).countP
      (fun d => decide (sectionTitleOf d = s.1)) := by
  induction secs with
  | nil => intro acc _ s hs; simp at hs
  | cons s0 rest ih =>
    intro acc hsize s hs
    obtain ⟨t, a, l⟩ := s0
    have hkl : k ≤ l.length := hk (t, a, l) (List.mem_cons_self _ _)
    have hpl := walk_piece_length l k hkl
    have hpc := walk_piece_countP l k t
      (htitle (t, a, l) (List.mem_cons_self _ _)) hkl
    simp only [walkSections]
    rcases List.mem_cons.mp hs with hs0 | hsrest
    · subst hs0
      split
      · rw [List.countP_append, hpc]
        omega
      · obtain ⟨tail, htail⟩ := walkSections_append m k rest
          (acc ++ ((sortDescBy (·.2) l).take (min l.length k)).map (·.1))
        rw [htail, List.append_assoc, List.countP_append, List.countP_append, hpc]
        omega
    · have hrestlen : 0 < rest.length := List.length_pos.mpr (List.ne_nil_of_mem hsrest)
      simp only [List.length_cons, Nat.add_sub_cancel] at hsize
      have hmul1 : k ≤ rest.length * k := Nat.le_mul_of_pos_left k hrestlen
      have he : rest.length - 1 + 1 = rest.length := by omega
      have hmul2 : (rest.length - 1 + 1) * k = (rest.length - 1) * k + k := Nat.succ_mul _ _
      rw [he] at hmul2
      have hnostop : ¬ m ≤ (acc ++ ((sortDescBy (·.2) l).take (min l.length k)).map (·.1)).length := by
        rw [List.length_append, hpl]
        omega
      rw [if_neg hnostop]
      exact ih (fun s' hs' => hk s' (List.mem_cons_of_mem _ hs'))
        (fun s' hs' => htitle s' (List.mem_cons_of_mem _ hs'))
        (acc ++ ((sortDescBy (·.2) l).take (min l.length k)).map (·.1))
        (by
          rw [List.length_append, hpl]
          omega)
        s hsrest

theorem countP_sampleFillPhase_ge (qd : Doc → Bool) (m : Nat)
    (standalone : List (Doc × ℚ)) (sel : List Doc) :
    sel.countP qd ≤ (sampleFillPhase m standalone sel).countP qd := by
  unfold sampleFillPhase
  split
  · rw [List.countP_append]; omega
  · exact Nat.le_refl _

theorem sampleFillPhase_of_le (m : Nat) (standalone : List (Doc × ℚ))
    (sel : List Doc) (h : m ≤ sel.length) :
    sampleFillPhase m standalone sel = sel := by
  unfold sampleFillPhase
  rw [if_neg]
  intro hcond
  exact absurd hcond.1 (by omega)

theorem sampleFillPhase_length_le (m : Nat) (standalone : List (Doc × ℚ))
    (sel : List Doc) :
    (sampleFillPhase m standalone sel).length ≤ max sel.length m := by
  unfold sampleFillPhase
  split
  · rename_i hcond
    rw [List.length_append, List.length_map, List.length_take]
    omega
  · exact Nat.le_max_left _ _

theorem reScore_map_fst_eq (scored : List (Doc × ℚ)) (sel : List Doc)
    (h : ∀ c ∈ sel, ∃ p ∈ scored, p.1 = c) :
    (reScore scored sel).map (·.1) = sel := by
  induction sel with
  | nil => simp [reScore]
  | cons c rest ih =>
    have hex := h c (List.mem_cons_self _ _)
    have hsome : (scored.find? fun p => decide (p.1 = c)).isSome := by
      rw [List.find?_isSome]
      obtain ⟨p, hp, hpc⟩ := hex
      exact ⟨p, hp, by simpa using hpc⟩
    simp only [reScore] at ih ⊢
    rw [List.filterMap_cons]
    cases hf : scored.find? (fun p => decide (p.1 = c)) with
    | none => rw [hf] at hsome; simp at hsome
    | some p =>
      simp only [Option.map_some', List.map_cons]
      rw [ih (fun c' hc' => h c' (List.mem_cons_of_mem _ hc'))]

theorem countP_take_ge (p : α → Bool) (l : List α) (n : Nat) :
    l.countP p ≤ (l.take n).countP p + (l.length - n) := by
  conv_lhs => rw [← List.take_append_drop n l]
  rw [List.countP_append]
  have h1 : (l.drop n).countP p ≤ (l.drop n).length := List.countP_le_length p
  rw [List.length_drop] at h1
  omega

theorem mem_scored_of_mem_fill (scored : List (Doc × ℚ)) (m : Nat) (c : Doc)
    (hc : c ∈ sampleFillPhase m (partitionScored scored).2
        (sampleGroupsPhase m (partitionScored scored).1)) :
    ∃ p ∈ scored, p.1 = c := by
  have h1 := countP_sampleFillPhase_le (fun x => decide (x = c)) m
    (partitionScored scored).2 (sampleGroupsPhase m (partitionScored scored).1)
  have h2 := countP_sampleGroupsPhase_le (fun x => decide (x = c)) m
    (partitionScored scored).1
  have h3 := countP_partitionScored (fun p => decide (p.1 = c)) scored
  have h4 : 0 < (sampleFillPhase m (partitionScored scored).2
      (sampleGroupsPhase m (partitionScored scored).1)).countP
      (fun x => decide (x = c)) :=
    List.countP_pos_iff.mpr ⟨c, hc, by simp⟩
  have h5 : 0 < scored.countP (fun p => decide (p.1 = c)) := by omega
  obtain ⟨p, hp, hpc⟩ := List.countP_pos_iff.mp h5
  exact ⟨p, hp, by simpa using hpc⟩

theorem sampleGroupsPhase_facts (m : Nat) (gr : List (Str × List (Doc × ℚ)))
    (hg : gr ≠ [])
    (htitle : ∀ g ∈ gr, ∀ p ∈ g.2, sectionTitleOf p.1 = g.1)
    (hq : ∀ g ∈ gr, quotaOf m gr.length ≤ g.2.length)
    (hlen : (gr.length - 1) * quotaOf m gr.length < m) :
    (sampleGroupsPhase m gr).length = gr.length * quotaOf m gr.length ∧
    ∀ g ∈ gr, quotaOf m gr.length ≤ (sampleGroupsPhase m gr).countP
      (fun d => decide (sectionTitleOf d = g.1)) := by
  unfold sampleGroupsPhase
  rw [if_neg hg]
  have hsecs_len : (sortDescBy (·.2.1)
      (gr.map fun g => (g.1, sectionAvg g.2, g.2))).length = gr.length := by
    rw [(sortDescBy_perm _ _).length_eq, List.length_map]
  have hmemsec : ∀ s ∈ sortDescBy (·.2.1) (gr.map fun g => (g.1, sectionAvg g.2, g.2)),
      ∃ g ∈ gr, s = (g.1, sectionAvg g.2, g.2) := by
    intro s hs
    have := (sortDescBy_perm (·.2.1)
      (gr.map fun g => (g.1, sectionAvg g.2, g.2))).mem_iff.mp hs
    obtain ⟨g, hg', heq⟩ := List.mem_map.mp this
    exact ⟨g, hg', heq.symm⟩
  have hk : ∀ s ∈ sortDescBy (·.2.1) (gr.map fun g => (g.1, sectionAvg g.2, g.2)),
      quotaOf m gr.length ≤ s.2.2.length := by
    intro s hs
    obtain ⟨g, hg', rfl⟩ := hmemsec s hs
    exact hq g hg'
  have ht : ∀ s ∈ sortDescBy (·.2.1) (gr.map fun g => (g.1, sectionAvg g.2, g.2)),
      ∀ p ∈ s.2.2, sectionTitleOf p.1 = s.1 := by
    intro s hs
    obtain ⟨g, hg', rfl⟩ := hmemsec s hs
    exact htitle g hg'
  constructor
  · have := walkSections_length m (quotaOf m gr.length)
      (sortDescBy (·.2.1) (gr.map fun g => (g.1, sectionAvg g.2, g.2))) hk []
      (by rw [hsecs_len]; simpa using hlen)
    rw [this, hsecs_len]
    simp
  · intro g hgmem
    have hsmem : (g.1, sectionAvg g.2, g.2) ∈ sortDescBy (·.2.1)
        (gr.map fun g => (g.1, sectionAvg g.2, g.2)) :=
      (sortDescBy_perm (·.2.1)
        (gr.map fun g => (g.1, sectionAvg g.2, g.2))).mem_iff.mpr
        (List.mem_map.mpr ⟨g, hgmem, rfl⟩)
    have := walkSections_coverage m (quotaOf m gr.length)
      (sortDescBy (·.2.1) (gr.map fun g => (g.1, sectionAvg g.2, g.2))) hk ht []
      (by rw [hsecs_len]; simpa using hlen) (g.1, sectionAvg g.2, g.2) hsmem
    exact this

/-- The truncation phase removes at most `sel.length - max_chunks` passages:
for any predicate, the count in the truncated output drops by at most the
number of removed passages.  Requires every selected passage to occur in the
scored list (so the re-scoring lookup finds a score for each). -/
theorem countP_sampleTruncPhase_ge (qd : Doc → Bool) (m : Nat)
    (scored : List (Doc × ℚ)) (sel : List Doc)
    (hmatch : ∀ c ∈ sel, ∃ p ∈ scored, p.1 = c) :
    sel.countP qd ≤ (sampleTruncPhase m scored sel).countP qd + (sel.length - m) := by
  unfold sampleTruncPhase
  split
  · have hre := reScore_map_fst_eq scored sel hmatch
    have hrs_len : (reScore scored sel).length = sel.length := by
      conv_rhs => rw [← hre]
      rw [List.length_map]
    have hperm := sortDescBy_perm (·.2) (reScore scored sel)
    have hcount : (sortDescBy (·.2) (reScore scored sel)).countP
        (fun p => qd p.1) = sel.countP qd := by
      rw [hperm.countP_eq]
      have h1 : (reScore scored sel).countP (fun p => qd p.1)
          = ((reScore scored sel).map (·.1)).countP qd := by
        rw [List.countP_map]
        rfl
      rw [h1, hre]
    have htake := countP_take_ge (fun p => qd p.1)
      (sortDescBy (·.2) (reScore scored sel)) m
    have hlen2 : (sortDescBy (·.2) (reScore scored sel)).length = sel.length := by
      rw [hperm.length_eq, hrs_len]
    rw [List.countP_map]
    have heq : (((sortDescBy (·.2) (reScore scored sel)).take m)).countP
        (qd ∘ (·.1))
        = (((sortDescBy (·.2) (reScore scored sel)).take m)).countP
          (fun p => qd p.1) := rfl
    rw [heq]
    omega
  · omega

/-- Coverage of the sampler core under the quota-compatible hypotheses:
at least two section buckets, each bucket holding at least the per-section
quota, and `(number_of_sections - 1) * quota < max_chunks` (so that the
early-stopping walk reaches every section and the final truncation cannot
exhaust a whole bucket). -/
theorem sampleCore_coverage (chunks : List Doc) (m : Nat) (scores : List ℚ)
    (hg2 : 2 ≤ (partitionScored (chunks.zip scores)).1.length)
    (hq : ∀ g ∈ (partitionScored (chunks.zip scores)).1,
      quotaOf m (partitionScored (chunks.zip scores)).1.length ≤ g.2.length)
    (hlen : ((partitionScored (chunks.zip scores)).1.length - 1)
      * quotaOf m (partitionScored (chunks.zip scores)).1.length < m) :
    ∀ g ∈ (partitionScored (chunks.zip scores)).1,
      ∃ d ∈ sampleCore chunks m scores, sectionTitleOf d = g.1 := by
  intro g hg
  have hgne : (partitionScored (chunks.zip scores)).1 ≠ [] := by
    intro hnil; rw [hnil] at hg2; simp at hg2
  have htitle := partitionScored_title (chunks.zip scores)
  have hfacts := sampleGroupsPhase_facts m (partitionScored (chunks.zip scores)).1
    hgne htitle hq hlen
  have hk2 : 2 ≤ quotaOf m (partitionScored (chunks.zip scores)).1.length :=
    Nat.le_max_left _ _
  have hcov1 : quotaOf m (partitionScored (chunks.zip scores)).1.length
      ≤ (sampleFillPhase m (partitionScored (chunks.zip scores)).2
          (sampleGroupsPhase m (partitionScored (chunks.zip scores)).1)).countP
          (fun d => decide (sectionTitleOf d = g.1)) :=
    le_trans (hfacts.2 g hg) (countP_sampleFillPhase_ge _ m _ _)
  have hmatch : ∀ c ∈ sampleFillPhase m (partitionScored (chunks.zip scores)).2
      (sampleGroupsPhase m (partitionScored (chunks.zip scores)).1),
      ∃ p ∈ chunks.zip scores, p.1 = c :=
    fun c hc => mem_scored_of_mem_fill (chunks.zip scores) m c hc
  have htr := countP_sampleTruncPhase_ge (fun d => decide (sectionTitleOf d = g.1))
    m (chunks.zip scores)
    (sampleFillPhase m (partitionScored (chunks.zip scores)).2
      (sampleGroupsPhase m (partitionScored (chunks.zip scores)).1)) hmatch
  have hdrop : (sampleFillPhase m (partitionScored (chunks.zip scores)).2
      (sampleGroupsPhase m (partitionScored (chunks.zip scores)).1)).length - m
      < quotaOf m (partitionScored (chunks.zip scores)).1.length := by
    rcases Nat.le_total m
        (sampleGroupsPhase m (partitionScored (chunks.zip scores)).1).length with h | h
    · have hfe := sampleFillPhase_of_le m (partitionScored (chunks.zip scores)).2
        (sampleGroupsPhase m (partitionScored (chunks.zip scores)).1) h
      rw [hfe, hfacts.1]
      have he : (partitionScored (chunks.zip scores)).1.length - 1 + 1
          = (partitionScored (chunks.zip scores)).1.length := by omega
      have hmul : ((partitionScored (chunks.zip scores)).1.length - 1 + 1)
          * quotaOf m (partitionScored (chunks.zip scores)).1.length
          = ((partitionScored (chunks.zip scores)).1.length - 1)
            * quotaOf m (partitionScored (chunks.zip scores)).1.length
            + quotaOf m (partitionScored (chunks.zip scores)).1.length :=
        Nat.succ_mul _ _
      rw [he] at hmul
      omega
    · have hfl := sampleFillPhase_length_le m (partitionScored (chunks.zip scores)).2
        (sampleGroupsPhase m (partitionScored (chunks.zip scores)).1)
      rw [Nat.max_eq_right h] at hfl
      omega
  have hcore : sampleCore chunks m scores
      = sampleTruncPhase m (chunks.zip scores)
        (sampleFillPhase m (partitionScored (chunks.zip scores)).2
          (sampleGroupsPhase m (partitionScored (chunks.zip scores)).1)) := rfl
  have hpos : 0 < (sampleCore chunks m scores).countP
      (fun d => decide (sectionTitleOf d = g.1)) := by
    rw [hcore]
    omega
  obtain ⟨d, hd, hdp⟩ := List.countP_pos_iff.mp hpos
  exact ⟨d, hd, by simpa using hdp⟩

theorem sampleTruncPhase_length_le (m : Nat) (scored : List (Doc × ℚ))
    (sel : List Doc) : (sampleTruncPhase m scored sel).length ≤ m := by
  unfold sampleTruncPhase
  split
  · simp [List.length_take]
  · omega

theorem sampling_length_le (embed : List Str → Option (List (List ℚ)))
    (cosSim : List ℚ → List ℚ → ℚ) (chunks : List Doc) (maxChunks : Nat)
    (query : Option Str) :
    (semanticChunkSampling embed cosSim chunks maxChunks query).length ≤ maxChunks := by
  unfold semanticChunkSampling
  split
  · assumption
  · exact sampleTruncPhase_length_le _ _ _

theorem metaGet_metaSet_self (m : Metadata) (k : Str) (v : MVal) :
    metaGet? (metaSet m k v) k = some v := by
  induction m with
  | nil => simp [metaSet, metaGet?]
  | cons kv rest ih =>
    obtain ⟨k', v'⟩ := kv
    by_cases h : k' = k
    · simp [metaSet, metaGet?, h]
    · simp [metaSet, metaGet?, h, ih]

theorem metaGet_metaSet_ne (m : Metadata) (k k' : Str) (v : MVal)
    (h : k' ≠ k) : metaGet? (metaSet m k v) k' = metaGet? m k' := by
  induction m with
  | nil =>
    simp only [metaSet, metaGet?]
    rw [if_neg (Ne.symm h)]
  | cons kv rest ih =>
    obtain ⟨k0, v0⟩ := kv
    simp only [metaSet]
    by_cases h0 : k0 = k
    · rw [if_pos h0]
      simp only [metaGet?]
      rw [if_neg (Ne.symm h), if_neg (h0 ▸ Ne.symm h)]
    · rw [if_neg h0]
      simp only [metaGet?]
      by_cases h1 : k0 = k'
      · rw [if_pos h1, if_pos h1]
      · rw [if_neg h1, if_neg h1]
        exact ih

theorem mem_metaSet (m : Metadata) (k : Str) (v : MVal) :
    ∀ kv ∈ metaSet m k v, kv = (k, v) ∨ kv ∈ m := by
  induction m with
  | nil => intro kv h; simp [metaSet] at h; exact Or.inl h
  | cons kv0 rest ih =>
    obtain ⟨k0, v0⟩ := kv0
    intro kv h
    by_cases h0 : k0 = k
    · simp only [metaSet, h0, if_true, List.mem_cons] at h
      rcases h with h | h
      · exact Or.inl h
      · exact Or.inr (List.mem_cons_of_mem _ h)
    · simp only [metaSet, h0, if_false, List.mem_cons] at h
      rcases h with h | h
      · exact Or.inr (h ▸ List.mem_cons_self _ _)
      · rcases ih kv h with h' | h'
        · exact Or.inl h'
        · exact Or.inr (List.mem_cons_of_mem _ h')

theorem metaGet_metaSetAll_ne (kvs : Metadata) :
    ∀ (m : Metadata) (k : Str), (∀ kv ∈ kvs, kv.1 ≠ k) →
    metaGet? (metaSetAll m kvs) k = metaGet? m k := by
  induction kvs with
  | nil => intro m k _; rfl
  | cons kv rest ih =>
    intro m k hk
    show metaGet? (metaSetAll (metaSet m kv.1 kv.2) rest) k = metaGet? m k
    rw [ih (metaSet m kv.1 kv.2) k (fun kv' h' => hk kv' (List.mem_cons_of_mem _ h'))]
    exact metaGet_metaSet_ne m kv.1 k kv.2 (fun he => hk kv (List.mem_cons_self _ _) he.symm)

theorem splitNlGo_ne_nil (s cur : Str) : splitNlGo s cur ≠ [] := by
  induction s generalizing cur with
  | nil => simp [splitNlGo]
  | cons c rest ih =>
    simp only [splitNlGo]
    split
    · simp
    · exact ih _

theorem joinNl_splitNlGo (s : Str) : ∀ cur : Str,
    joinNl (splitNlGo s cur) = cur.reverse ++ s := by
  induction s with
  | nil => intro cur; simp [splitNlGo, joinNl]
  | cons c rest ih =>
    intro cur
    simp only [splitNlGo]
    split
    · rename_i hc
      subst hc
      have hne := splitNlGo_ne_nil rest []
      cases hsp : splitNlGo rest [] with
      | nil => exact absurd hsp hne
      | cons b t =>
        have ihr := ih []
        rw [hsp] at ihr
        simp only [List.reverse_nil, List.nil_append] at ihr
        show joinNl (cur.reverse :: b :: t) = cur.reverse ++ '\n' :: rest
        show cur.reverse ++ '\n' :: joinNl (b :: t) = cur.reverse ++ '\n' :: rest
        rw [ihr]
    · have ihr := ih (c :: cur)
      rw [ihr]
      simp

theorem joinNl_splitNl (s : Str) : joinNl (splitNl s) = s := by
  have := joinNl_splitNlGo s []
  simpa [splitNl] using this

theorem identifySectionsGo_no_match (hdr : Str → Bool) (lines : List Str)
    (hno : ∀ line ∈ lines, hdr (strip line) = false) :
    ∀ (i : Nat) (cur : List Str) (t : Str) (st : Nat)
      (secs : List (Str × Str × Nat)),
    identifySectionsGo hdr lines i cur t st secs
      = if cur ++ lines = [] then secs
        else if 50 < (strip (joinNl (cur ++ lines))).length
          then secs ++ [(t, joinNl (cur ++ lines), st)] else secs := by
  induction lines with
  | nil =>
    intro i cur t st secs
    simp only [identifySectionsGo, List.append_nil]
  | cons line rest ih =>
    intro i cur t st secs
    have hline : hdr (strip line) = false := hno line (List.mem_cons_self _ _)
    have hcond : ¬ (hdr (strip line) = true ∧ cur ≠ []) := by
      intro h
      rw [hline] at h
      exact absurd h.1 (by simp)
    simp only [identifySectionsGo]
    rw [if_neg (by simpa using hcond)]
    have ihr := ih (fun l hl => hno l (List.mem_cons_of_mem _ hl)) (i + 1)
      (cur ++ [line]) t st secs
    rw [ihr, List.append_assoc]
    simp

theorem identifySections_no_match (hdr : Str → Bool) (text : Str)
    (hno : ∀ line ∈ splitNl text, hdr (strip line) = false) :
    identifySections hdr text
      = if 50 < (strip text).length then [([], text, 0)] else [] := by
  unfold identifySections
  rw [identifySectionsGo_no_match hdr (splitNl text) hno 0 [] [] 0 []]
  rw [List.nil_append]
  rw [if_neg (show splitNl text ≠ [] from splitNlGo_ne_nil text [])]
  rw [joinNl_splitNl]
  simp

theorem fallbackSplit_chunk_type (rcts : Str → List Str) (doc : Doc) :
    ∀ c ∈ fallbackSplit rcts doc,
    metaGet? c.metadata (lit "chunk_type")
      = some (.vs (lit "fallback_split")) := by
  intro c hc
  unfold fallbackSplit at hc
  obtain ⟨p, _, hfc⟩ := List.mem_filterMap.mp hc
  split at hfc
  · cases hfc
    exact metaGet_metaSet_self _ _ _
  · cases hfc

theorem identifySectionsGo_emitted_long (hdr : Str → Bool)
    (lines : List Str) :
    ∀ (i : Nat) (cur : List Str) (t : Str) (st : Nat)
      (secs : List (Str × Str × Nat)),
    (∀ s ∈ secs, 50 < (strip s.2.1).length) →
    ∀ s ∈ identifySectionsGo hdr lines i cur t st secs,
      50 < (strip s.2.1).length := by
  induction lines with
  | nil =>
    intro i cur t st secs hsecs s hs
    simp only [identifySectionsGo] at hs
    split at hs
    · exact hsecs s hs
    · split at hs
      · rename_i h50
        rcases List.mem_append.mp hs with h | h
        · exact hsecs s h
        · simp only [List.mem_singleton] at h
          subst h
          exact h50
      · exact hsecs s hs
  | cons line rest ih =>
    intro i cur t st secs hsecs s hs
    simp only [identifySectionsGo] at hs
    split at hs
    · refine ih (i + 1) [line] (strip line) i _ ?_ s hs
      intro s' hs'
      split at hs'
      · rename_i h50
        rcases List.mem_append.mp hs' with h | h
        · exact hsecs s' h
        · simp only [List.mem_singleton] at h
          subst h
          exact h50
      · exact hsecs s' hs'
    · exact ih (i + 1) (cur ++ [line]) t st secs hsecs s hs

theorem pySplitGo_append_nl (ys : Str) : ∀ (xs cur : Str),
    pySplitGo (xs ++ '\n' :: ys) cur = pySplitGo xs cur ++ pySplitGo ys [] := by
  intro xs
  induction xs with
  | nil =>
    intro cur
    show pySplitGo ('\n' :: ys) cur = pySplitGo [] cur ++ pySplitGo ys []
    have hw : isWS '\n' = true := by decide
    by_cases hc : cur = [] <;> simp [pySplitGo, hw, hc]
  | cons x xs ih =>
    intro cur
    show pySplitGo (x :: (xs ++ '\n' :: ys)) cur
      = pySplitGo (x :: xs) cur ++ pySplitGo ys []
    by_cases hx : isWS x
    · by_cases hc : cur = [] <;> simp [pySplitGo, hx, hc, ih]
    · simp [pySplitGo, hx, ih]

theorem pySplitWs_title_concat (title chunk : Str) :
    pySplitWs (title ++ '\n' :: '\n' :: chunk)
      = pySplitWs title ++ pySplitWs chunk := by
  show pySplitGo (title ++ '\n' :: ('\n' :: chunk)) [] = _
  rw [pySplitGo_append_nl]
  have hw : isWS '\n' = true := by decide
  show pySplitGo title [] ++ pySplitGo ('\n' :: chunk) [] = _
  simp only [pySplitGo, hw, if_true]
  rfl

theorem length_dropWhile_append_left_ge (p : α → Bool) (xs ys : List α) :
    (xs.dropWhile p).length ≤ ((xs ++ ys).dropWhile p).length := by
  rw [List.dropWhile_append]
  split
  · rename_i he
    simp only [List.isEmpty_iff] at he
    rw [he]
    simp
  · rw [List.length_append]
    omega

theorem strip_append_length_ge (a b : Str) :
    (strip b).length ≤ (strip (a ++ b)).length := by
  unfold strip
  rw [List.dropWhile_append]
  split
  · exact Nat.le_refl _
  · rw [List.reverse_append, List.dropWhile_append]
    split
    · rename_i he
      simp only [List.isEmpty_iff] at he
      have hb : b.dropWhile isWS = [] := by
        rw [List.dropWhile_eq_nil_iff] at he ⊢
        intro x hx
        exact he x (List.mem_reverse.mpr hx)
      rw [hb]
      simp
    · simp only [List.length_reverse, List.length_append]
      have hsplit : b = b.takeWhile isWS ++ b.dropWhile isWS :=
        (List.takeWhile_append_dropWhile isWS b).symm
      have hrev : b.reverse
          = (b.dropWhile isWS).reverse ++ (b.takeWhile isWS).reverse := by
        conv_lhs => rw [hsplit]
        rw [List.reverse_append]
      have hge := length_dropWhile_append_left_ge isWS
        (b.dropWhile isWS).reverse (b.takeWhile isWS).reverse
      rw [← hrev] at hge
      omega

theorem hasSufficientContext_enhance (title chunk : Str)
    (h : hasSufficientContext chunk = true) :
    hasSufficientContext (enhance title chunk) = true := by
  unfold enhance
  split
  · exact h
  · unfold hasSufficientContext at h ⊢
    rw [Bool.and_eq_true, decide_eq_true_eq, decide_eq_true_eq] at h ⊢
    obtain ⟨h1, h2⟩ := h
    constructor
    · have hl := strip_append_length_ge (title ++ ['\n', '\n']) chunk
      have hsh : title ++ '\n' :: '\n' :: chunk
          = (title ++ ['\n', '\n']) ++ chunk := by simp
      rw [hsh]
      omega
    · rw [pySplitWs_title_concat, List.length_append]
      omega

theorem fallbackSplit_admissible (rcts : Str → List Str) (doc : Doc) :
    ∀ c ∈ fallbackSplit rcts doc,
    hasSufficientContext c.pageContent = true := by
  intro c hc
  unfold fallbackSplit at hc
  obtain ⟨p, _, hfc⟩ := List.mem_filterMap.mp hc
  split at hfc
  · rename_i hsuf
    cases hfc
    exact hsuf
  · cases hfc

theorem splitSection_large_admissible (chunkSize : Nat) (rcts : Str → List Str)
    (body title : Str) (meta : Metadata) (pos : Nat)
    (hlarge : ¬ 2 * body.length ≤ 3 * chunkSize) :
    ∀ c ∈ splitSection chunkSize rcts body title meta pos,
      hasSufficientContext c.pageContent = true := by
  intro c hc
  unfold splitSection at hc
  rw [if_neg hlarge] at hc
  obtain ⟨p, _, hfc⟩ := List.mem_filterMap.mp hc
  split at hfc
  · rename_i hsuf
    cases hfc
    exact hasSufficientContext_enhance title p.2 hsuf
  · cases hfc

theorem extractHeadersStep_keys (acc : Metadata × Nat) (p : Nat × Str)
    (hacc : ∀ kv ∈ acc.1, kv.1 ∈ emailHeaderKeys) :
    ∀ kv ∈ (extractHeadersStep acc p).1, kv.1 ∈ emailHeaderKeys := by
  intro kv hkv
  unfold extractHeadersStep at hkv
  split at hkv
  · split at hkv
    · rename_i k v heq
      split at hkv
      · rename_i hkmem
        rcases mem_metaSet acc.1 (pyLower (strip k)) (.vs (strip v)) kv hkv with h | h
        · rw [h]
          exact hkmem
        · exact hacc kv h
      · exact hacc kv hkv
    · exact hacc kv hkv
  · exact hacc kv hkv

theorem extractHeaders_foldl_keys (l : List (Nat × Str)) :
    ∀ acc : Metadata × Nat, (∀ kv ∈ acc.1, kv.1 ∈ emailHeaderKeys) →
    ∀ kv ∈ (l.foldl extractHeadersStep acc).1, kv.1 ∈ emailHeaderKeys := by
  induction l with
  | nil => intro acc hacc; exact hacc
  | cons p rest ih =>
    intro acc hacc
    exact ih (extractHeadersStep acc p) (extractHeadersStep_keys acc p hacc)

theorem extractHeaders_keys (lines : List Str) :
    ∀ kv ∈ (extractHeaders lines).1, kv.1 ∈ emailHeaderKeys :=
  extractHeaders_foldl_keys lines.enum ([], 0) (by simp)

theorem emailHeaderKeys_ne_chunk_type :
    ∀ k ∈ emailHeaderKeys, k ≠ lit "chunk_type" := by decide

theorem emailHeaderKeys_ne_section_title :
    ∀ k ∈ emailHeaderKeys, k ≠ lit "section_title" := by decide

theorem splitEmailDocument_metadata (cfg : SplitterCfg)
    (rcts : Str → List Str) (doc : Doc) :
    ∀ c ∈ splitEmailDocument cfg rcts doc,
    (metaGet? c.metadata (lit "chunk_type") = some (.vs (lit "email_headers")) ∨
     metaGet? c.metadata (lit "chunk_type") = some (.vs (lit "email_body"))) ∧
    (∃ s, metaGet? c.metadata (lit "section_title") = some (.vs s)) := by
  intro c hc
  have hkeys := extractHeaders_keys (splitNl doc.pageContent)
  have hct : ∀ kv ∈ (extractHeaders (splitNl doc.pageContent)).1,
      kv.1 ≠ lit "chunk_type" :=
    fun kv h => emailHeaderKeys_ne_chunk_type kv.1 (hkeys kv h)
  have hst : ∀ kv ∈ (extractHeaders (splitNl doc.pageContent)).1,
      kv.1 ≠ lit "section_title" :=
    fun kv h => emailHeaderKeys_ne_section_title kv.1 (hkeys kv h)
  unfold splitEmailDocument at hc
  rcases List.mem_append.mp hc with hmem | hmem
  · split at hmem
    · simp at hmem
    · simp only [List.mem_singleton] at hmem
      subst hmem
      refine ⟨Or.inl ?_, lit "Email Headers", ?_⟩
      · rw [metaGet_metaSetAll_ne _ _ _ hct, metaGet_metaSet_self]
      · rw [metaGet_metaSetAll_ne _ _ _ hst,
          metaGet_metaSet_ne _ _ _ _ (by decide), metaGet_metaSet_self]
  · split at hmem
    · simp at hmem
    · split at hmem
      · simp only [List.mem_singleton] at hmem
        subst hmem
        refine ⟨Or.inr ?_, lit "Email Body", ?_⟩
        · rw [metaGet_metaSetAll_ne _ _ _ hct, metaGet_metaSet_self]
        · rw [metaGet_metaSetAll_ne _ _ _ hst,
            metaGet_metaSet_ne _ _ _ _ (by decide), metaGet_metaSet_self]
      · obtain ⟨p, _, hpc⟩ := List.mem_map.mp hmem
        subst hpc
        refine ⟨Or.inr ?_, lit "Email Body Part " ++ Nat.toDigits 10 (p.1 + 1), ?_⟩
        · rw [metaGet_metaSetAll_ne _ _ _ hct,
            metaGet_metaSet_ne _ _ _ _ (by decide), metaGet_metaSet_self]
        · rw [metaGet_metaSetAll_ne _ _ _ hst,
            metaGet_metaSet_ne _ _ _ _ (by decide),
            metaGet_metaSet_ne _ _ _ _ (by decide), metaGet_metaSet_self]

theorem splitSection_metadata (chunkSize : Nat) (rcts : Str → List Str)
    (body title : Str) (meta : Metadata) (pos : Nat) :
    ∀ c ∈ splitSection chunkSize rcts body title meta pos,
    (metaGet? c.metadata (lit "chunk_type") = some (.vs (lit "complete_section")) ∧
     metaGet? c.metadata (lit "section_title") = some (.vs title)) ∨
    (metaGet? c.metadata (lit "chunk_type") = some (.vs (lit "section_part")) ∧
     metaGet? c.metadata (lit "section_title") = some (.vs title) ∧
     ∃ n, metaGet? c.metadata (lit "chunk_index") = some (.vn n)) := by
  intro c hc
  unfold splitSection at hc
  split at hc
  · simp only [List.mem_singleton] at hc
    subst hc
    refine Or.inl ⟨metaGet_metaSet_self _ _ _, ?_⟩
    rw [metaGet_metaSet_ne _ _ _ _ (by decide),
      metaGet_metaSet_ne _ _ _ _ (by decide), metaGet_metaSet_self]
  · obtain ⟨p, _, hfc⟩ := List.mem_filterMap.mp hc
    split at hfc
    · cases hfc
      refine Or.inr ⟨metaGet_metaSet_self _ _ _, ?_, p.1, ?_⟩
      · rw [metaGet_metaSet_ne _ _ _ _ (by decide),
          metaGet_metaSet_ne _ _ _ _ (by decide),
          metaGet_metaSet_ne _ _ _ _ (by decide), metaGet_metaSet_self]
      · rw [metaGet_metaSet_ne _ _ _ _ (by decide), metaGet_metaSet_self]
    · cases hfc

/-! ## Claim theorems -/

/-- C1: for every passage list, every `max_count ≥ 0`, every query (including
none) and every behaviour of the embedding provider, the list returned by
`semantic_chunk_sampling` has length at most `max_count`, including when the
per-section quota floor makes the intermediate selection overshoot before the
final truncation step. -/
theorem C1_sampling_bounded (embed : List Str → Option (List (List ℚ)))
    (cosSim : List ℚ → List ℚ → ℚ) (chunks : List Doc) (maxChunks : Nat)
    (query : Option Str) :
    (semanticChunkSampling embed cosSim chunks maxChunks query).length ≤ maxChunks :=
  sampling_length_le embed cosSim chunks maxChunks query

/-- C6: for any passage list with `len ≤ max_count`, `semantic_chunk_sampling`
is the identity — it returns exactly the input passages, unchanged, and the
result does not depend on the embedding provider or the query (no scoring is
performed). -/
theorem C6_sampling_identity_path (embed : List Str → Option (List (List ℚ)))
    (cosSim : List ℚ → List ℚ → ℚ) (chunks : List Doc) (maxChunks : Nat)
    (query : Option Str) (h : chunks.length ≤ maxChunks) :
    semanticChunkSampling embed cosSim chunks maxChunks query = chunks := by
  unfold semanticChunkSampling
  simp [h]

/-- Witness for C6 at a concrete one-element passage list. -/
theorem C6_sampling_identity_path_witness :
    semanticChunkSampling (fun _ => none) (fun _ _ => 0)
      [⟨lit "hello world today", []⟩] 3 none = [⟨lit "hello world today", []⟩] :=
  C6_sampling_identity_path (fun _ => none) (fun _ _ => 0)
    [⟨lit "hello world today", []⟩] 3 none (by decide)

/-- C7: when the embedding provider call fails (raises), the scoring function
does not propagate the error: it returns, for each candidate passage, the
length-proportional fallback score `min(token_count/100, 1.0)` computed on the
prepared chunk text, so it yields one score per passage and no failure is
surfaced. -/
theorem C7_scoring_fallback_on_failure
    (embed : List Str → Option (List (List ℚ)))
    (cosSim : List ℚ → List ℚ → ℚ) (chunks : List Doc) (query : Option Str)
    (hfail : embed (scoreInputs chunks query) = none) :
    calculateSemanticScores embed cosSim chunks query =
      chunks.map (fun c => fallbackScore (prepChunkText c.pageContent)) ∧
    (calculateSemanticScores embed cosSim chunks query).length = chunks.length := by
  unfold calculateSemanticScores
  unfold scoreInputs at hfail
  rw [hfail]
  exact ⟨by simp [List.map_map], by simp⟩

unseal Rat.mul Rat.inv in
/-- Witness for C7 at a concrete failing provider and passage list. -/
theorem C7_scoring_fallback_on_failure_witness :
    calculateSemanticScores (fun _ => none) (fun _ _ => 0)
        [⟨lit "alpha beta gamma", []⟩] none =
      [min (3 / 100 : ℚ) 1] ∧
    (calculateSemanticScores (fun _ => none) (fun _ _ => 0)
        [⟨lit "alpha beta gamma", []⟩] none).length = 1 := by
  have h := C7_scoring_fallback_on_failure (fun _ => none) (fun _ _ => 0)
    [⟨lit "alpha beta gamma", []⟩] none rfl
  exact ⟨h.1.trans (by decide), h.2⟩

/-- C8: the parameter selector is a monotonic step function of total content
length with exactly six tiers, from `(1500, 200)` for lengths `≤ 5000` up to
`(3500, 500)` for lengths `> 100000`: both outputs are monotone, every output
is one of the six tier pairs, and each tier pair is attained. -/
theorem C8_selectParameters_tiers :
    (∀ a b : Nat, a ≤ b →
      (selectParameters a).1 ≤ (selectParameters b).1 ∧
      (selectParameters a).2 ≤ (selectParameters b).2) ∧
    (∀ n, n ≤ 5000 → selectParameters n = (1500, 200)) ∧
    (∀ n, 100000 < n → selectParameters n = (3500, 500)) ∧
    (∀ n, selectParameters n ∈
      [(1500, 200), (1800, 250), (2000, 300), (2500, 350), (3000, 400), (3500, 500)]) ∧
    (∀ p ∈ [(1500, 200), (1800, 250), (2000, 300), (2500, 350), (3000, 400), (3500, 500)],
      ∃ n, selectParameters n = p) := by
  refine ⟨?_, ?_, ?_, ?_, ?_⟩
  · intro a b hab
    unfold selectParameters
    split_ifs <;> simp_all <;> omega
  · intro n hn
    unfold selectParameters
    split_ifs <;> first | rfl | omega
  · intro n hn
    unfold selectParameters
    split_ifs <;> first | rfl | omega
  · intro n
    unfold selectParameters
    split_ifs <;> simp
  · intro p hp
    fin_cases hp
    · exact ⟨0, by decide⟩
    · exact ⟨5001, by decide⟩
    · exact ⟨10001, by decide⟩
    · exact ⟨25001, by decide⟩
    · exact ⟨50001, by decide⟩
    · exact ⟨100001, by decide⟩

/-- C10: for every input passage list, `max_count`, query, and embedding
behaviour, the list returned by `semantic_chunk_sampling` is a sub-multiset of
the input: every returned passage is an element of the input list, and no
passage occurs more often in the output than in the input — the sampler never
fabricates a passage and never duplicates one. -/
theorem C10_sampling_submultiset (embed : List Str → Option (List (List ℚ)))
    (cosSim : List ℚ → List ℚ → ℚ) (chunks : List Doc) (maxChunks : Nat)
    (query : Option Str) :
    (∀ d ∈ semanticChunkSampling embed cosSim chunks maxChunks query, d ∈ chunks) ∧
    (∀ d : Doc, (semanticChunkSampling embed cosSim chunks maxChunks query).count d
      ≤ chunks.count d) := by
  unfold semanticChunkSampling
  split
  · exact ⟨fun d hd => hd, fun d => Nat.le_refl _⟩
  · constructor
    · intro d hd
      exact mem_chunks_of_mem_sampleCore chunks maxChunks _ d hd
    · intro d
      exact countP_sampleCore_le (fun x => x == d) chunks maxChunks _

/-- Witness for C10 at a concrete passage list (identity path, membership and
multiplicity both discharged at explicit inputs). -/
theorem C10_sampling_submultiset_witness :
    (⟨lit "one two three four", []⟩ : Doc) ∈ [(⟨lit "one two three four", []⟩ : Doc)] ∧
    (semanticChunkSampling (fun _ => none) (fun _ _ => 0)
        [(⟨lit "one two three four", []⟩ : Doc)] 2 none).count
        ⟨lit "one two three four", []⟩
      ≤ [(⟨lit "one two three four", []⟩ : Doc)].count ⟨lit "one two three four", []⟩ :=
  ⟨(C10_sampling_submultiset (fun _ => none) (fun _ _ => 0)
      [⟨lit "one two three four", []⟩] 2 none).1 ⟨lit "one two three four", []⟩
      (by decide),
   (C10_sampling_submultiset (fun _ => none) (fun _ _ => 0)
      [⟨lit "one two three four", []⟩] 2 none).2 ⟨lit "one two three four", []⟩⟩

/-- Concrete no-boundary-match document: 61 characters, so the stripped
length exceeds the 50-character emission threshold. -/
def cexTextC3 : Str := lit "the quick brown fox jumps over the lazy dog and runs far away"

/-- The no-match document wrapped with a non-email `doc_type`. -/
def cexDocC3 : Doc := ⟨cexTextC3, [(lit "doc_type", MVal.vs (lit "text"))]⟩

/-- Counterexample to C3 as stated: a document in which no boundary pattern
matches any line (the boundary predicate is constantly false) but whose
stripped text exceeds 50 characters.  `identify_sections` returns the whole
document as one untitled section — not an empty sequence — and the caller
then emits a `complete_section` passage, not `fallback_split`. -/
theorem C3_no_match_counterexample :
    (∀ line ∈ splitNl cexTextC3, (fun _ : Str => false) (strip line) = false) ∧
    identifySections (fun _ => false) cexTextC3 ≠ [] ∧
    (splitSingleDocument ⟨1500, 200, lit "general"⟩ (fun _ _ => false)
        (fun s => [s]) (fun s => [s]) cexDocC3).map
        (fun c => metaGet? c.metadata (lit "chunk_type"))
      = [some (.vs (lit "complete_section"))] := by
  decide

/-- C3 (amended): when no boundary pattern matches any line AND the whole
document's stripped length is at most 50 characters, `identify_sections`
returns an empty sequence and the caller's fallback path tags every produced
passage `fallback_split`.  (When the stripped length exceeds 50, the function
instead returns one untitled section spanning the whole document — see the
counterexample.) -/
theorem C3_no_match_short_fallback (cfg : SplitterCfg)
    (hdrFor : Str → Str → Bool) (rctsDefault rctsSection : Str → List Str)
    (doc : Doc)
    (hdoc : metaGetStr doc.metadata (lit "doc_type") cfg.docType ≠ lit "email")
    (hnomatch : ∀ line ∈ splitNl doc.pageContent,
      hdrFor (metaGetStr doc.metadata (lit "doc_type") cfg.docType)
        (strip line) = false)
    (hshort : (strip doc.pageContent).length ≤ 50) :
    identifySections
      (hdrFor (metaGetStr doc.metadata (lit "doc_type") cfg.docType))
      doc.pageContent = [] ∧
    ∀ c ∈ splitSingleDocument cfg hdrFor rctsDefault rctsSection doc,
      metaGet? c.metadata (lit "chunk_type")
        = some (.vs (lit "fallback_split")) := by
  have hsec : identifySections
      (hdrFor (metaGetStr doc.metadata (lit "doc_type") cfg.docType))
      doc.pageContent = [] := by
    rw [identifySections_no_match _ _ hnomatch]
    rw [if_neg (by omega)]
  refine ⟨hsec, ?_⟩
  intro c hc
  unfold splitSingleDocument at hc
  rw [if_neg hdoc] at hc
  rw [hsec] at hc
  simp only [if_pos rfl] at hc
  exact fallbackSplit_chunk_type rctsDefault doc c hc

/-- Concrete short no-match document for the amended-C3 witness. -/
def cexDocC3W : Doc := ⟨lit "hello world one two", [(lit "doc_type", MVal.vs (lit "text"))]⟩

/-- Witness for the amended C3 at a concrete short no-match document. -/
theorem C3_no_match_short_fallback_witness :
    identifySections
      ((fun _ _ => false)
        (metaGetStr cexDocC3W.metadata (lit "doc_type") (lit "general")))
      cexDocC3W.pageContent = [] ∧
    ∀ c ∈ splitSingleDocument ⟨1500, 200, lit "general"⟩ (fun _ _ => false)
        (fun s => [s]) (fun s => [s]) cexDocC3W,
      metaGet? c.metadata (lit "chunk_type")
        = some (.vs (lit "fallback_split")) :=
  C3_no_match_short_fallback ⟨1500, 200, lit "general"⟩ (fun _ _ => false)
    (fun s => [s]) (fun s => [s]) cexDocC3W (by decide) (by decide) (by decide)

/-- A 60-character single-token document: it passes the 50-character section
emission threshold but has only one whitespace-delimited token, so it fails
the passage filter. -/
def cexDocC5 : Doc :=
  ⟨lit "aaaaaaaaaaaaaaaaaaaaaaaaaaaaaaaaaaaaaaaaaaaaaaaaaaaaaaaaaaaa",
   [(lit "doc_type", MVal.vs (lit "text"))]⟩

/-- Counterexample to C5 as stated: the complete-section path of
`_split_section` applies no filter, so a 60-character one-token section is
returned as a `complete_section` passage that violates the Passage Filter
predicate (1 token ≤ 2). -/
theorem C5_admissibility_counterexample :
    (splitSingleDocument ⟨1500, 200, lit "general"⟩ (fun _ _ => false)
        (fun s => [s]) (fun s => [s]) cexDocC5).map
        (fun c => (metaGet? c.metadata (lit "chunk_type"),
          hasSufficientContext c.pageContent))
      = [(some (.vs (lit "complete_section")), false)] := by
  decide

/-- C5 (amended): the Passage Filter is applied on the section-part path and
the fallback path — every passage those paths return satisfies it — and the
sampler never introduces a violating passage (its output is a subset of its
input); but the complete-section path and the email paths apply no filter
(see the counterexample). -/
theorem C5_admissibility :
    (∀ (rcts : Str → List Str) (doc : Doc), ∀ c ∈ fallbackSplit rcts doc,
      hasSufficientContext c.pageContent = true) ∧
    (∀ (chunkSize : Nat) (rcts : Str → List Str) (body title : Str)
      (meta : Metadata) (pos : Nat), ¬ 2 * body.length ≤ 3 * chunkSize →
      ∀ c ∈ splitSection chunkSize rcts body title meta pos,
        hasSufficientContext c.pageContent = true) ∧
    (∀ (embed : List Str → Option (List (List ℚ)))
      (cosSim : List ℚ → List ℚ → ℚ) (chunks : List Doc) (m : Nat)
      (q : Option Str),
      (∀ c ∈ chunks, hasSufficientContext c.pageContent = true) →
      ∀ c ∈ semanticChunkSampling embed cosSim chunks m q,
        hasSufficientContext c.pageContent = true) := by
  refine ⟨fallbackSplit_admissible, splitSection_large_admissible, ?_⟩
  intro embed cosSim chunks m q hall c hc
  unfold semanticChunkSampling at hc
  split at hc
  · exact hall c hc
  · exact hall c (mem_chunks_of_mem_sampleCore chunks m _ c hc)

/-- Witness for the amended C5: applied to a concrete over-budget section and
a concrete passage list. -/
theorem C5_admissibility_witness :
    (∀ c ∈ splitSection 1 (fun s => [s]) (lit "aa bb cc dd") (lit "T") [] 0,
      hasSufficientContext c.pageContent = true) ∧
    (splitSection 1 (fun s => [s]) (lit "aa bb cc dd") (lit "T") [] 0).length
      = 1 ∧
    (∀ c ∈ semanticChunkSampling (fun _ => none) (fun _ _ => 0)
        [(⟨lit "aa bb cc dd", []⟩ : Doc)] 3 none,
      hasSufficientContext c.pageContent = true) :=
  ⟨C5_admissibility.2.1 1 (fun s => [s]) (lit "aa bb cc dd") (lit "T") [] 0
      (by decide),
   by decide,
   C5_admissibility.2.2 (fun _ => none) (fun _ _ => 0)
     [⟨lit "aa bb cc dd", []⟩] 3 none (by decide)⟩

/-- Boundary predicate of the C4 counterexample: exactly the line `SEC`
is a section header. -/
def cexHdrC4 : Str → Bool := fun l => l = lit "SEC"

/-- C4 counterexample text: a header, a two-character body line `xx`, a second
header, and a 60-character body.  The first section (`SEC\nxx`) strips to
6 ≤ 50 characters, so it is dropped — and its line `xx` is discarded, not
merged forward. -/
def cexTextC4 : Str :=
  lit "SEC\nxx\nSEC\naaaaaaaaaaaaaaaaaaaaaaaaaaaaaaaaaaaaaaaaaaaaaaaaaaaaaaaaaaaa"

/-- Counterexample to C4 as stated: the input line `xx` belongs to a dropped
short section, and no emitted section body contains the character `x` at all —
the dropped section's raw lines are lost, not merged into the following
section's accumulation. -/
theorem C4_short_section_counterexample :
    (lit "xx") ∈ splitNl cexTextC4 ∧
    'x' ∈ cexTextC4 ∧
    (identifySections cexHdrC4 cexTextC4).length = 1 ∧
    (∀ s ∈ identifySections cexHdrC4 cexTextC4, ¬ 'x' ∈ s.2.1) := by
  decide

/-- C4 (amended): a completed section is emitted as a standalone unit only if
its body's stripped length exceeds 50 characters — every emitted section body
satisfies this; but when a section is too short its raw lines are discarded
(`current_section` is reset to the new header line), not merged into the
following section's accumulation (see the counterexample). -/
theorem C4_emitted_sections_long (hdr : Str → Bool) (text : Str) :
    ∀ s ∈ identifySections hdr text, 50 < (strip s.2.1).length := by
  intro s hs
  exact identifySectionsGo_emitted_long hdr (splitNl text) 0 [] [] 0 []
    (by simp) s hs

/-- Witness for the amended C4: the single emitted section of the
counterexample text indeed has a stripped body longer than 50 characters. -/
theorem C4_emitted_sections_long_witness :
    50 < (strip ((lit "SEC",
      lit "SEC\naaaaaaaaaaaaaaaaaaaaaaaaaaaaaaaaaaaaaaaaaaaaaaaaaaaaaaaaaaaa",
      2) : Str × Str × Nat).2.1).length :=
  C4_emitted_sections_long cexHdrC4 cexTextC4
    (lit "SEC",
      lit "SEC\naaaaaaaaaaaaaaaaaaaaaaaaaaaaaaaaaaaaaaaaaaaaaaaaaaaaaaaaaaaa",
      2) (by decide)

/-- The closed set of `chunk_type` values. -/
def chunkTypes : List Str :=
  [lit "complete_section", lit "section_part", lit "fallback_split",
   lit "email_headers", lit "email_body"]

/-- A five-token document whose stripped length (25) stays at or below the
50-character section threshold, forcing the fallback path. -/
def cexDocC9 : Doc :=
  ⟨lit "hello world one two three", [(lit "doc_type", MVal.vs (lit "text"))]⟩

/-- Counterexample to C9 as stated: the fallback path sets `chunk_index` and
`chunk_type` but never `section_title`, so a fallback passage carries no
`section_title` field at all. -/
theorem C9_metadata_counterexample :
    (splitSingleDocument ⟨1500, 200, lit "general"⟩ (fun _ _ => false)
        (fun s => [s]) (fun s => [s]) cexDocC9).map
        (fun c => (metaGet? c.metadata (lit "section_title"),
          metaGet? c.metadata (lit "chunk_type")))
      = [(none, some (.vs (lit "fallback_split")))] := by
  decide

/-- C9 (amended): every passage produced by any splitting path carries a
`chunk_type` field whose value is one of the five closed values; every
passage whose `chunk_type` is not `fallback_split` also carries a
`section_title`; and every `section_part` passage carries a `chunk_index`.
Passages from the fallback path carry `chunk_index` and `chunk_type` but no
`section_title` (see the counterexample). -/
theorem C9_metadata_fields (cfg : SplitterCfg) (hdrFor : Str → Str → Bool)
    (rctsDefault rctsSection : Str → List Str) (doc : Doc) :
    ∀ c ∈ splitSingleDocument cfg hdrFor rctsDefault rctsSection doc,
    (∃ v ∈ chunkTypes,
      metaGet? c.metadata (lit "chunk_type") = some (.vs v)) ∧
    (metaGet? c.metadata (lit "chunk_type") ≠ some (.vs (lit "fallback_split")) →
      ∃ s, metaGet? c.metadata (lit "section_title") = some (.vs s)) ∧
    (metaGet? c.metadata (lit "chunk_type") = some (.vs (lit "section_part")) →
      ∃ n, metaGet? c.metadata (lit "chunk_index") = some (.vn n)) := by
  intro c hc
  unfold splitSingleDocument at hc
  by_cases hemail : metaGetStr doc.metadata (lit "doc_type") cfg.docType
      = lit "email"
  · rw [if_pos hemail] at hc
    obtain ⟨hct, hst⟩ := splitEmailDocument_metadata cfg rctsDefault doc c hc
    refine ⟨?_, fun _ => hst, ?_⟩
    · rcases hct with h | h
      · exact ⟨lit "email_headers", by decide, h⟩
      · exact ⟨lit "email_body", by decide, h⟩
    · intro hsp
      rcases hct with h | h <;> rw [h] at hsp <;> simp at hsp <;>
        exact absurd hsp (by decide)
  · rw [if_neg hemail] at hc
    by_cases hsec : identifySections
        (hdrFor (metaGetStr doc.metadata (lit "doc_type") cfg.docType))
        doc.pageContent = []
    rotate_left
    · rw [if_neg hsec] at hc
      obtain ⟨l, hl, hcl⟩ := List.mem_flatten.mp hc
      obtain ⟨s, _, hsl⟩ := List.mem_map.mp hl
      subst hsl
      rcases splitSection_metadata cfg.chunkSize rctsSection s.2.1 s.1
          doc.metadata s.2.2 c hcl with ⟨hct, hst⟩ | ⟨hct, hst, hidx⟩
      · refine ⟨⟨lit "complete_section", by decide, hct⟩,
          fun _ => ⟨s.1, hst⟩, ?_⟩
        intro hsp
        rw [hct] at hsp
        simp at hsp
        exact absurd hsp (by decide)
      · exact ⟨⟨lit "section_part", by decide, hct⟩, fun _ => ⟨s.1, hst⟩,
          fun _ => hidx⟩
    · rw [if_pos hsec] at hc
      have hct := fallbackSplit_chunk_type rctsDefault doc c hc
      refine ⟨⟨lit "fallback_split", by decide, hct⟩, ?_, ?_⟩
      · intro hne
        exact absurd hct hne
      · intro hsp
        rw [hct] at hsp
        simp at hsp
        exact absurd hsp (by decide)

/-- The concrete `complete_section` passage produced from the 60-character
one-token document (untitled section, metadata in construction order). -/
def cexChunkC9W : Doc :=
  ⟨lit "aaaaaaaaaaaaaaaaaaaaaaaaaaaaaaaaaaaaaaaaaaaaaaaaaaaaaaaaaaaa",
   [(lit "doc_type", MVal.vs (lit "text")),
    (lit "section_title", MVal.vs []),
    (lit "section_start", MVal.vn 0),
    (lit "chunk_type", MVal.vs (lit "complete_section"))]⟩

/-- Witness for the amended C9: the concrete complete-section passage carries
a closed-set `chunk_type` and a `section_title`. -/
theorem C9_metadata_fields_witness :
    (∃ v ∈ chunkTypes,
      metaGet? cexChunkC9W.metadata (lit "chunk_type") = some (.vs v)) ∧
    (metaGet? cexChunkC9W.metadata (lit "chunk_type")
        ≠ some (.vs (lit "fallback_split")) →
      ∃ s, metaGet? cexChunkC9W.metadata (lit "section_title") = some (.vs s)) ∧
    (metaGet? cexChunkC9W.metadata (lit "chunk_type")
        = some (.vs (lit "section_part")) →
      ∃ n, metaGet? cexChunkC9W.metadata (lit "chunk_index") = some (.vn n)) :=
  C9_metadata_fields ⟨1500, 200, lit "general"⟩ (fun _ _ => false)
    (fun s => [s]) (fun s => [s]) cexDocC5 cexChunkC9W (by decide)

/-- A passage with the given text and section title, as produced by the
section splitter (only the `section_title` metadata matters to the sampler). -/
def secDoc (t : String) (sec : String) : Doc :=
  ⟨lit t, [(lit "section_title", MVal.vs (lit sec))]⟩

/-- Concrete counterexample input for the coverage claim: six admissible
passages in three sections with strictly decreasing fallback scores
(token counts 9 … 4), `max_chunks = 4`. -/
def cexChunksC2 : List Doc :=
  [secDoc "aa bb cc dd ee ff gg hh ii" "A",
   secDoc "aa bb cc dd ee ff gg hh" "A",
   secDoc "aa bb cc dd ee ff gg" "B",
   secDoc "aa bb cc dd ee ff" "B",
   secDoc "aa bb cc dd ee" "C",
   secDoc "aa bb cc dd" "C"]

unseal Rat.add Rat.mul Rat.inv in
/-- Counterexample to C2 as stated: with three sections of two admissible
passages each (so every section holds at least the per-section quota
`max(2, 4 // 3) = 2`), six passages, and `max_chunks = 4`, the sampler's
early-stopped walk selects only sections A and B — no passage of section C is
returned, although C satisfies every hypothesis of the claim. -/
theorem C2_coverage_counterexample :
    4 < cexChunksC2.length ∧
    (∀ c ∈ cexChunksC2, hasSufficientContext c.pageContent = true) ∧
    (partitionScored (cexChunksC2.zip (calculateSemanticScores
        (fun _ => none) (fun _ _ => 0) cexChunksC2 none))).1.length = 3 ∧
    quotaOf 4 3 = 2 ∧
    (∀ g ∈ (partitionScored (cexChunksC2.zip (calculateSemanticScores
        (fun _ => none) (fun _ _ => 0) cexChunksC2 none))).1,
      g.1 ≠ [] ∧ 2 ≤ g.2.length) ∧
    (∃ g ∈ (partitionScored (cexChunksC2.zip (calculateSemanticScores
        (fun _ => none) (fun _ _ => 0) cexChunksC2 none))).1, g.1 = lit "C") ∧
    (∀ d ∈ semanticChunkSampling (fun _ => none) (fun _ _ => 0) cexChunksC2 4 none,
      sectionTitleOf d ≠ lit "C") := by
  decide

/-- C2 (amended): the claim holds under the additional hypothesis
`(number_of_sections - 1) * per_section_quota < max_count`, which rules out
the early stop of the section walk before the last section and bounds the
final truncation by less than one quota; without it the walk stops as soon as
the selection reaches `max_count` and later sections receive nothing (see the
counterexample). -/
theorem C2_sampling_coverage (embed : List Str → Option (List (List ℚ)))
    (cosSim : List ℚ → List ℚ → ℚ) (chunks : List Doc) (maxChunks : Nat)
    (query : Option Str)
    (hover : maxChunks < chunks.length)
    (hg2 : 2 ≤ (partitionScored (chunks.zip
      (calculateSemanticScores embed cosSim chunks query))).1.length)
    (hq : ∀ g ∈ (partitionScored (chunks.zip
        (calculateSemanticScores embed cosSim chunks query))).1,
      quotaOf maxChunks (partitionScored (chunks.zip
        (calculateSemanticScores embed cosSim chunks query))).1.length ≤ g.2.length)
    (hlen : ((partitionScored (chunks.zip
        (calculateSemanticScores embed cosSim chunks query))).1.length - 1)
      * quotaOf maxChunks (partitionScored (chunks.zip
        (calculateSemanticScores embed cosSim chunks query))).1.length < maxChunks) :
    ∀ g ∈ (partitionScored (chunks.zip
        (calculateSemanticScores embed cosSim chunks query))).1,
      ∃ d ∈ semanticChunkSampling embed cosSim chunks maxChunks query,
        sectionTitleOf d = g.1 := by
  intro g hg
  have heq : semanticChunkSampling embed cosSim chunks maxChunks query
      = sampleCore chunks maxChunks
        (calculateSemanticScores embed cosSim chunks query) := by
    unfold semanticChunkSampling
    rw [if_neg (by omega)]
  rw [heq]
  exact sampleCore_coverage chunks maxChunks _ hg2 hq hlen g hg

/-- Concrete input for the amended-C2 witness: two sections of two admissible
passages plus one standalone passage, `max_chunks = 4`, so that
`(2 - 1) * quota = 2 < 4`. -/
def cexChunksC2W : List Doc :=
  [secDoc "aa bb cc dd ee ff gg hh ii" "A",
   secDoc "aa bb cc dd ee ff gg hh" "A",
   secDoc "aa bb cc dd ee ff gg" "B",
   secDoc "aa bb cc dd ee ff" "B",
   ⟨lit "aa bb cc dd ee", []⟩]

unseal Rat.add Rat.mul Rat.inv in
/-- Witness for the amended C2 at a concrete input: section A (and likewise
every section bucket) is represented in the sampled output. -/
theorem C2_sampling_coverage_witness :
    ∃ d ∈ semanticChunkSampling (fun _ => none) (fun _ _ => 0) cexChunksC2W 4 none,
      sectionTitleOf d = lit "A" := by
  have h := C2_sampling_coverage (fun _ => none) (fun _ _ => 0) cexChunksC2W 4 none
    (by decide) (by decide) (by decide) (by decide)
  exact h (lit "A",
    [(secDoc "aa bb cc dd ee ff gg hh ii" "A", min ((9 : ℚ) / 100) 1),
     (secDoc "aa bb cc dd ee ff gg hh" "A", min ((8 : ℚ) / 100) 1)])
    (by decide)

/-- Witness for C8 at concrete lengths. -/
theorem C8_selectParameters_tiers_witness :
    (selectParameters 3000).1 ≤ (selectParameters 60000).1 ∧
    (selectParameters 3000).2 ≤ (selectParameters 60000).2 ∧
    selectParameters 3000 = (1500, 200) ∧
    selectParameters 123456 = (3500, 500) :=
  ⟨(C8_selectParameters_tiers.1 3000 60000 (by decide)).1,
   (C8_selectParameters_tiers.1 3000 60000 (by decide)).2,
   C8_selectParameters_tiers.2.1 3000 (by decide),
   C8_selectParameters_tiers.2.2.1 123456 (by decide)⟩

end Verdicto
